import Mathlib

set_option maxRecDepth 8000

namespace AccessReview

/-! Shallow embedding of `streamlit_access_app.py`: the Admin Panel roster
ingestion pipeline, supervisor code issuance and lookup, the review-session
state, and the audit logger.  Strings are modelled through their character
lists; pandas DataFrames by a column-name list plus rows of optional cells
(`none` models NaN); the durable JSON / Excel stores by `Option`-wrapped
values (`none` models a store file that does not exist). -/

/-- Models the regex replacement of a single leading byte-order mark
(`^﻿`, applied to column names in `load_or_create_codes` and in the
upload handler). -/
def stripBOM : List Char → List Char
  | [] => []
  | c :: cs => if c = '﻿' then cs else c :: cs

/-- Models Python `str.strip()` on a column name: leading and trailing
whitespace characters are removed. -/
def stripWS (l : List Char) : List Char :=
  ((l.dropWhile Char.isWhitespace).reverse.dropWhile Char.isWhitespace).reverse

/-- Normalization applied to one column name: BOM strip, then whitespace
strip, exactly as `df.columns.str.replace(r'^﻿', '', regex=True).str.strip()`. -/
def normName (s : String) : String := ⟨stripWS (stripBOM s.data)⟩

/-- Models Python `str.lower()` on a column name (basic-latin case folding,
as in the source's case-insensitive `Supervisor` match). -/
def lowerStr (s : String) : String := ⟨s.data.map Char.toLower⟩

/-- Normalization of a whole header row. -/
def normalizeCols (cols : List String) : List String := cols.map normName

/-- A pandas DataFrame: column names plus rows of optional cells
(`none` models NaN / a missing cell). -/
structure DF where
  cols : List String
  rows : List (List (Option String))
  deriving DecidableEq, Repr

/-- Keep the first occurrence of every element, as pandas `Series.unique`
and `DataFrame.drop_duplicates` do. -/
def dedupFirst {α : Type} [DecidableEq α] (l : List α) : List α :=
  l.foldl (fun acc a => if a ∈ acc then acc else acc ++ [a]) []

/-- Lexicographic code-point comparison of two character lists — the
string order Python's `sorted` uses. -/
def ltChars : List Char → List Char → Bool
  | [], [] => false
  | [], _ :: _ => true
  | _ :: _, [] => false
  | a :: as, b :: bs => if a < b then true else if b < a then false else ltChars as bs

/-- Insert a string into a sorted list, keeping it sorted. -/
def insertSorted (a : String) : List String → List String
  | [] => [a]
  | b :: bs => if ltChars b.data a.data then b :: insertSorted a bs else a :: b :: bs

/-- Models Python `sorted` on a list of strings (insertion sort; it agrees
with `sorted` on the duplicate-free lists it is applied to). -/
def sortStrings (l : List String) : List String := l.foldr insertSorted []

/-- The value `str(random.randint(1000, 9999))` for one draw of the random
oracle: draws are modelled as a stream of values of `Fin 9000`. -/
def codeOf (v : Fin 9000) : String := toString (1000 + v.val)

/-- A 4-digit decimal code string in the documented range. -/
def isCode (s : String) : Prop := ∃ n, 1000 ≤ n ∧ n ≤ 9999 ∧ s = toString n

/-- Models `generate_unique_code`.  The unbounded `while True` retry loop is
given explicit fuel, `none` modelling non-termination; `i` is the position
in the random stream and the returned index is the next unused draw. -/
def generate_unique_code (stream : Nat → Fin 9000) (existing : List String) :
    Nat → Nat → Option (String × Nat)
  | 0, _ => none
  | fuel + 1, i =>
      if codeOf (stream i) ∈ existing then
        generate_unique_code stream existing fuel (i + 1)
      else
        some (codeOf (stream i), i + 1)

/-- The `supervisor_codes.json` document: an insertion-ordered map, as a
Python dict serialized to JSON. -/
abbrev CodeMap := List (String × String)

/-- Index of the first column whose normalized name is case-insensitively
`supervisor`.  `load_or_create_codes` re-normalizes the columns of the frame
it receives before searching, so normalization is applied here on top of
whatever the caller already did. -/
def findSupIdx : List String → Option Nat
  | [] => none
  | c :: cs =>
      if lowerStr (normName c) = "supervisor" then some 0
      else (findSupIdx cs).map (· + 1)

/-- The sorted unique non-null values of column `j`:
`sorted(df[sup_col].dropna().unique())`. -/
def supervisorsOf (df : DF) (j : Nat) : List String :=
  sortStrings (dedupFirst (df.rows.filterMap (fun r => r.getD j none)))

/-- The assignment loop of `load_or_create_codes`: each supervisor not yet a
key of the map gets a fresh code checked against all currently assigned
codes; the map and the stream position thread through the loop. -/
def assignCodes (stream : Nat → Fin 9000) (fuel : Nat) :
    List String → CodeMap → Nat → Option (CodeMap × Nat)
  | [], m, i => some (m, i)
  | sup :: rest, m, i =>
      if sup ∈ m.map Prod.fst then assignCodes stream fuel rest m i
      else
        match generate_unique_code stream (m.map Prod.snd) fuel i with
        | none => none
        | some (c, i2) => assignCodes stream fuel rest (m ++ [(sup, c)]) i2

/-- Outcome of `load_or_create_codes`: the missing-`Supervisor` `st.stop`
abort, divergence of the retry loop, or the updated durable map. -/
inductive CodesOutcome where
  | schemaError : CodesOutcome
  | diverged : CodesOutcome
  | ok : CodeMap → CodesOutcome
  deriving DecidableEq, Repr

/-- Models `load_or_create_codes`.  `store` is the durable
`supervisor_codes.json` document (`none`: the file does not exist); on
success the returned map is also what gets written back to the store. -/
def load_or_create_codes (stream : Nat → Fin 9000) (fuel : Nat) (df : DF)
    (store : Option CodeMap) : CodesOutcome :=
  match findSupIdx df.cols with
  | none => .schemaError
  | some j =>
      match assignCodes stream fuel (supervisorsOf df j) (store.getD []) 0 with
      | none => .diverged
      | some (m, _) => .ok m

/-- Models `find_supervisor_by_code`: a missing code file yields `None`;
otherwise the first entry holding the code wins. -/
def find_supervisor_by_code (store : Option CodeMap) (code : String) : Option String :=
  match store with
  | none => none
  | some m => (m.find? (fun p => p.2 == code)).map Prod.fst

/-- Split a character list at the first occurrence of the separator
`" - "`, as `entry.split(' - ', 1)` does. -/
def splitAtSep : List Char → Option (List Char × List Char)
  | [] => none
  | ' ' :: '-' :: ' ' :: rest => some ([], rest)
  | c :: cs =>
      match splitAtSep cs with
      | none => none
      | some (pre, post) => some (c :: pre, post)

/-- Models `uid, _ = entry.split(' - ', 1)`; `none` models the
`ValueError` raised when the label has no separator. -/
def parseLabel (entry : String) : Option (String × String) :=
  (splitAtSep entry.data).map (fun p => (⟨p.1⟩, ⟨p.2⟩))

/-- Exact-name column lookup, as pandas `df['name']`; `none` models the
`KeyError` raised when the exact name is absent. -/
def getColIdx (df : DF) (name : String) : Option Nat :=
  df.cols.findIdx? (fun c => c == name)

/-- Models `df[df['Supervisor'] == supervisor][['User ID', 'User Name',
'Role', 'Role Name']].drop_duplicates()` — the supervisor's deduplicated
team, used both by the review tab and by `log_actions`; `none` models the
`KeyError` when one of the exact column names is missing. -/
def teamOf (df : DF) (sup : String) : Option (List (List (Option String))) := do
  let jS ← getColIdx df "Supervisor"
  let jU ← getColIdx df "User ID"
  let jN ← getColIdx df "User Name"
  let jR ← getColIdx df "Role"
  let jRN ← getColIdx df "Role Name"
  let filtered := df.rows.filter (fun r => r.getD jS none == some sup)
  some (dedupFirst (filtered.map (fun r =>
    [r.getD jU none, r.getD jN none, r.getD jR none, r.getD jRN none])))

/-- One row of the Excel audit log. -/
structure LogRow where
  userID : Option String
  userName : Option String
  role : Option String
  roleName : Option String
  supervisor : String
  action : String
  timestamp : String
  deriving DecidableEq, Repr

/-- The body of the `for entry in lst` loop of `log_actions` for one action:
parse the label (failure aborts the call), look up the first matching team
row, silently skip the entry when no row matches. -/
def recordsFor (team : List (List (Option String))) (sup action ts : String) :
    List String → Option (List LogRow)
  | [] => some []
  | entry :: rest =>
      match parseLabel entry with
      | none => none
      | some (uid, _) =>
          match recordsFor team sup action ts rest with
          | none => none
          | some tail =>
              match team.find? (fun r => r.getD 0 none == some uid) with
              | none => some tail
              | some r =>
                  some ({ userID := r.getD 0 none, userName := r.getD 1 none,
                          role := r.getD 2 none, roleName := r.getD 3 none,
                          supervisor := sup, action := action, timestamp := ts } :: tail)

/-- The record produced for one label when it parses and matches a team
row; `none` when it fails to parse or fails to match. -/
def resolveRow (team : List (List (Option String))) (sup action ts : String)
    (entry : String) : Option LogRow :=
  match parseLabel entry with
  | none => none
  | some (uid, _) =>
      match team.find? (fun r => r.getD 0 none == some uid) with
      | none => none
      | some r =>
          some { userID := r.getD 0 none, userName := r.getD 1 none,
                 role := r.getD 2 none, roleName := r.getD 3 none,
                 supervisor := sup, action := action, timestamp := ts }

/-- Resolution of a whole label list: `some` exactly when every label both
parses and matches, with the rows in label order. -/
def resolveAll (team : List (List (Option String))) (sup action ts : String) :
    List String → Option (List LogRow)
  | [] => some []
  | e :: es =>
      match resolveRow team sup action ts e, resolveAll team sup action ts es with
      | some r, some rs => some (r :: rs)
      | _, _ => none

/-- The full records computation of `log_actions`: `Approved` labels first,
then `Removed`, in label order. -/
def mkRecords (team : List (List (Option String))) (sup ts : String)
    (approved removed : List String) : Option (List LogRow) :=
  match recordsFor team sup "Approved" ts approved with
  | none => none
  | some a =>
      match recordsFor team sup "Removed" ts removed with
      | none => none
      | some r => some (a ++ r)

/-- Models `log_actions`.  `ts` is the single `datetime.now()` capture at
the top of the call; `store` is the Excel log (`none`: the file does not
exist); the outer `Option` models an uncaught exception, the inner value
the store after the call returns. -/
def log_actions (sup : String) (approved removed : List String) (df : DF)
    (ts : String) (store : Option (List LogRow)) : Option (Option (List LogRow)) :=
  match teamOf df sup with
  | none => none
  | some team =>
      match mkRecords team sup ts approved removed with
      | none => none
      | some recs =>
          if recs = [] then some store
          else some (some (store.getD [] ++ recs))

/-- One uploaded CSV: its first line (the header position) and its
remaining lines.  For the first uploaded file the first line really is the
header; for later files the code never looks at it. -/
structure RawFile where
  header : List String
  dataRows : List (List (Option String))
  deriving DecidableEq, Repr

/-- The read-and-normalize loop of the upload handler: the first file is
read with its own header, which is normalized and captured as
`expected_cols`; every later file is read with `header=None,
names=expected_cols, skiprows=1`, so its first line is dropped and its
remaining lines are parsed under the canonical schema. -/
def readParts : List RawFile → List DF
  | [] => []
  | f :: rest =>
      let df0 : DF := { cols := normalizeCols f.header, rows := f.dataRows }
      df0 :: rest.map (fun g => { cols := df0.cols, rows := g.dataRows })

/-- `pd.concat(all_dfs, ignore_index=True)`: one frame with the canonical
columns and all rows in order. -/
def concatParts (cols : List String) (parts : List DF) : DF :=
  { cols := cols, rows := (parts.map DF.rows).flatten }

/-- Result of a successful upload: the in-memory concatenated frame handed
to `load_or_create_codes`, and the file whose persisted raw bytes
`active_config.json` now points to — the handler stores the path of the
**first** uploaded file. -/
structure UploadResult where
  concatenated : DF
  activeFile : RawFile
  deriving DecidableEq, Repr

/-- Models the Admin Panel upload handler; `none` is the
please-select-a-file warning path. -/
def uploadHandler (files : List RawFile) : Option UploadResult :=
  match files with
  | [] => none
  | f :: rest =>
      some { concatenated := concatParts (normalizeCols f.header) (readParts (f :: rest)),
             activeFile := f }

/-- Models `load_dataframe`, which re-reads the active CSV from disk: the
raw header is used as-is, with no normalization. -/
def load_dataframe (active : RawFile) : DF :=
  { cols := active.header, rows := active.dataRows }

/-- The three screens of the Supervisor Review tab. -/
inductive Phase where
  | awaitingCode : Phase
  | inReview : Phase
  | completed : Phase
  deriving DecidableEq, Repr

/-- The five session-state keys initialised at module load. -/
structure SessionState where
  supervisor : Option String
  review_started : Bool
  review_complete : Bool
  approved : List String
  removed : List String
  deriving DecidableEq, Repr

/-- Which screen the Supervisor Review tab shows for a given state. -/
def phase (s : SessionState) : Phase :=
  if s.review_started = false then .awaitingCode
  else if s.review_complete = false then .inReview
  else .completed

/-- Models the Start New Review button: every key in the list
`['review_started', 'review_complete', 'approved', 'removed']` is reset to
`False` or `[]` according to its type; `supervisor` is not in that list. -/
def startNewReview (s : SessionState) : SessionState :=
  { s with review_started := false, review_complete := false,
           approved := [], removed := [] }

/-! Concrete instances used to exercise the definitions. -/

/-- A concrete fair random stream: cycles through all 9000 code values. -/
def wStream : Nat → Fin 9000 := fun i => ⟨i % 9000, Nat.mod_lt i (by norm_num)⟩

/-- A concrete two-employee roster under supervisor Jordan. -/
def wDF : DF :=
  ⟨["Supervisor", "User ID", "User Name", "Role", "Role Name"],
   [[some "Jordan", some "E1", some "Alice", some "R1", some "Admin"],
    [some "Jordan", some "E2", some "Bob", some "R2", some "Viewer"]]⟩

/-- Jordan's deduplicated team as computed from `wDF`. -/
def wTeam : List (List (Option String)) :=
  [[some "E1", some "Alice", some "R1", some "Admin"],
   [some "E2", some "Bob", some "R2", some "Viewer"]]

/-- The log row for approving E1. -/
def wRowA : LogRow :=
  ⟨some "E1", some "Alice", some "R1", some "Admin", "Jordan", "Approved", "T"⟩

/-- The log row for removing E2. -/
def wRowR : LogRow :=
  ⟨some "E2", some "Bob", some "R2", some "Viewer", "Jordan", "Removed", "T"⟩

/-! Helper lemmas. -/

theorem mem_dedupFirst_aux {α : Type} [DecidableEq α] (l : List α) :
    ∀ (acc : List α) (x : α),
      (x ∈ l.foldl (fun acc a => if a ∈ acc then acc else acc ++ [a]) acc) ↔
        x ∈ acc ∨ x ∈ l := by
  induction l with
  | nil => intro acc x; simp
  | cons a l ih =>
      intro acc x
      simp only [List.foldl_cons]
      rw [ih]
      by_cases ha : a ∈ acc
      · simp only [if_pos ha, List.mem_cons]
        constructor
        · rintro (h | h)
          · exact Or.inl h
          · exact Or.inr (Or.inr h)
        · rintro (h | rfl | h)
          · exact Or.inl h
          · exact Or.inl ha
          · exact Or.inr h
      · simp [if_neg ha, List.mem_append, List.mem_cons, or_assoc]

theorem mem_dedupFirst {α : Type} [DecidableEq α] (l : List α) (x : α) :
    x ∈ dedupFirst l ↔ x ∈ l := by
  unfold dedupFirst
  rw [mem_dedupFirst_aux]
  simp

theorem mem_insertSorted (a x : String) (l : List String) :
    x ∈ insertSorted a l ↔ x = a ∨ x ∈ l := by
  induction l with
  | nil => simp [insertSorted]
  | cons b bs ih =>
      simp only [insertSorted]
      split
      · simp only [List.mem_cons, ih]
        tauto
      · simp [List.mem_cons]

theorem mem_sortStrings (x : String) (l : List String) :
    x ∈ sortStrings l ↔ x ∈ l := by
  induction l with
  | nil => simp [sortStrings]
  | cons a l ih =>
      simp only [sortStrings, List.foldr_cons] at *
      rw [mem_insertSorted, ih]
      simp [List.mem_cons]

theorem isCode_codeOf (v : Fin 9000) : isCode (codeOf v) :=
  ⟨1000 + v.val, by omega, by have := v.isLt; omega, rfl⟩

theorem generate_unique_code_sound (stream : Nat → Fin 9000) (existing : List String) :
    ∀ (fuel i : Nat) (c : String) (i' : Nat),
      generate_unique_code stream existing fuel i = some (c, i') →
      c ∉ existing ∧ ∃ v, c = codeOf v := by
  intro fuel
  induction fuel with
  | zero => intro i c i' h; simp [generate_unique_code] at h
  | succ fuel ih =>
      intro i c i' h
      simp only [generate_unique_code] at h
      split at h
      · exact ih (i + 1) c i' h
      · rename_i hni
        rw [Option.some_inj, Prod.mk.injEq] at h
        obtain ⟨rfl, rfl⟩ := h.symm.imp Eq.symm Eq.symm
        exact ⟨hni, stream i, rfl⟩

theorem generate_unique_code_finds (stream : Nat → Fin 9000) (existing : List String) :
    ∀ (k start : Nat), codeOf (stream (start + k)) ∉ existing →
      ∃ c i', generate_unique_code stream existing (k + 1) start = some (c, i') := by
  intro k
  induction k with
  | zero =>
      intro start h
      rw [Nat.add_zero] at h
      refine ⟨codeOf (stream start), start + 1, ?_⟩
      simp only [generate_unique_code]
      rw [if_neg h]
  | succ k ih =>
      intro start h
      by_cases hmem : codeOf (stream start) ∈ existing
      · have h' : codeOf (stream (start + 1 + k)) ∉ existing := by
          have heq : start + 1 + k = start + (k + 1) := by omega
          rw [heq]; exact h
        obtain ⟨c, i', hc⟩ := ih (start + 1) h'
        refine ⟨c, i', ?_⟩
        simp only [generate_unique_code]
        rw [if_pos hmem]
        exact hc
      · exact ⟨codeOf (stream start), start + 1, by
          simp only [generate_unique_code]; rw [if_neg hmem]⟩

theorem assignCodes_invariant (stream : Nat → Fin 9000) (fuel : Nat) :
    ∀ (sups : List String) (m : CodeMap) (i : Nat) (m' : CodeMap) (i' : Nat),
      assignCodes stream fuel sups m i = some (m', i') →
      (m.map Prod.fst).Nodup → (m.map Prod.snd).Nodup →
      (∀ c ∈ m.map Prod.snd, isCode c) →
      (∃ ext, m' = m ++ ext) ∧
      (m'.map Prod.fst).Nodup ∧ (m'.map Prod.snd).Nodup ∧
      (∀ c ∈ m'.map Prod.snd, isCode c) ∧
      (∀ s ∈ sups, s ∈ m'.map Prod.fst) := by
  intro sups
  induction sups with
  | nil =>
      intro m i m' i' h hk hv hc
      simp only [assignCodes, Option.some_inj, Prod.mk.injEq] at h
      obtain ⟨rfl, rfl⟩ := h
      exact ⟨⟨[], by simp⟩, hk, hv, hc, by simp⟩
  | cons sup rest ih =>
      intro m i m' i' h hk hv hc
      simp only [assignCodes] at h
      split at h
      · rename_i hmem
        obtain ⟨⟨ext, hext⟩, hk', hv', hc', hall⟩ := ih m i m' i' h hk hv hc
        refine ⟨⟨ext, hext⟩, hk', hv', hc', ?_⟩
        intro s hs
        rcases List.mem_cons.mp hs with rfl | hs
        · rw [hext, List.map_append]
          exact List.mem_append_left _ hmem
        · exact hall s hs
      · rename_i hmem
        cases hgen : generate_unique_code stream (m.map Prod.snd) fuel i with
        | none => rw [hgen] at h; simp at h
        | some ci =>
            obtain ⟨c, i2⟩ := ci
            rw [hgen] at h
            obtain ⟨hnotmem, v, rfl⟩ :=
              generate_unique_code_sound stream (m.map Prod.snd) fuel i c i2 hgen
            have hk1 : ((m ++ [(sup, codeOf v)]).map Prod.fst).Nodup := by
              rw [List.map_append]
              rw [List.nodup_append]
              refine ⟨hk, List.nodup_singleton _, ?_⟩
              intro a ha hb
              simp only [List.map_cons, List.map_nil, List.mem_singleton] at hb
              subst hb
              exact hmem ha
            have hv1 : ((m ++ [(sup, codeOf v)]).map Prod.snd).Nodup := by
              rw [List.map_append]
              rw [List.nodup_append]
              refine ⟨hv, List.nodup_singleton _, ?_⟩
              intro a ha hb
              simp only [List.map_cons, List.map_nil, List.mem_singleton] at hb
              subst hb
              exact hnotmem ha
            have hc1 : ∀ x ∈ (m ++ [(sup, codeOf v)]).map Prod.snd, isCode x := by
              intro x hx
              rw [List.map_append] at hx
              rcases List.mem_append.mp hx with hx | hx
              · exact hc x hx
              · simp only [List.map_cons, List.map_nil, List.mem_singleton] at hx
                subst hx
                exact isCode_codeOf v
            obtain ⟨⟨ext, hext⟩, hk', hv', hc', hall⟩ :=
              ih (m ++ [(sup, codeOf v)]) i2 m' i' h hk1 hv1 hc1
            refine ⟨⟨(sup, codeOf v) :: ext, by rw [hext, List.append_assoc]; rfl⟩,
              hk', hv', hc', ?_⟩
            intro s hs
            rcases List.mem_cons.mp hs with rfl | hs
            · rw [hext, List.map_append]
              exact List.mem_append_left _ (by simp)
            · exact hall s hs

theorem load_codes_ok_invariant (stream : Nat → Fin 9000) (fuel : Nat) (df : DF)
    (store : Option CodeMap) (m : CodeMap)
    (hk : ((store.getD []).map Prod.fst).Nodup)
    (hv : ((store.getD []).map Prod.snd).Nodup)
    (hc : ∀ c ∈ (store.getD []).map Prod.snd, isCode c)
    (h : load_or_create_codes stream fuel df store = .ok m) :
    (∃ ext, m = store.getD [] ++ ext) ∧
    (m.map Prod.fst).Nodup ∧ (m.map Prod.snd).Nodup ∧
    (∀ c ∈ m.map Prod.snd, isCode c) ∧
    (∀ j, findSupIdx df.cols = some j →
      ∀ s, (∃ r ∈ df.rows, r.getD j none = some s) → s ∈ m.map Prod.fst) := by
  unfold load_or_create_codes at h
  cases hidx : findSupIdx df.cols with
  | none => rw [hidx] at h; cases h
  | some j =>
      simp only [hidx] at h
      cases hA : assignCodes stream fuel (supervisorsOf df j) (store.getD []) 0 with
      | none => simp only [hA] at h; cases h
      | some p =>
          obtain ⟨m0, i'⟩ := p
          simp only [hA] at h
          injection h with hm
          subst hm
          obtain ⟨⟨ext, hext⟩, hk', hv', hc', hall⟩ :=
            assignCodes_invariant stream fuel (supervisorsOf df j) (store.getD []) 0 m0 i'
              hA hk hv hc
          refine ⟨⟨ext, hext⟩, hk', hv', hc', ?_⟩
          intro j2 hj2 s hs
          injection hj2 with hj2
          subst hj2
          apply hall
          obtain ⟨r, hr, hcell⟩ := hs
          unfold supervisorsOf
          rw [mem_sortStrings, mem_dedupFirst]
          exact List.mem_filterMap.mpr ⟨r, hr, hcell⟩

theorem find_code_eq_of_mem (m : CodeMap) (s c : String)
    (hv : (m.map Prod.snd).Nodup) (hmem : (s, c) ∈ m) :
    m.find? (fun p => p.2 == c) = some (s, c) := by
  induction m with
  | nil => cases hmem
  | cons e tl ih =>
      obtain ⟨s', c'⟩ := e
      rw [List.map_cons, List.nodup_cons] at hv
      obtain ⟨hnotin, hvtl⟩ := hv
      by_cases hcc : c' = c
      · subst hcc
        rcases List.mem_cons.mp hmem with heq | htl
        · rw [Prod.mk.injEq] at heq
          obtain ⟨rfl, -⟩ := heq
          rw [List.find?_cons_of_pos]
          simp
        · exact absurd (List.mem_map_of_mem Prod.snd htl) hnotin
      · rw [List.find?_cons_of_neg]
        · rcases List.mem_cons.mp hmem with heq | htl
          · rw [Prod.mk.injEq] at heq
            exact absurd heq.2.symm hcc
          · exact ih hvtl htl
        · simp [hcc]

theorem find_code_eq_of_not_mem (m : CodeMap) (c : String)
    (h : c ∉ m.map Prod.snd) : m.find? (fun p => p.2 == c) = none := by
  rw [List.find?_eq_none]
  intro p hp hbeq
  rw [beq_iff_eq] at hbeq
  exact h (List.mem_map.mpr ⟨p, hp, hbeq⟩)

theorem resolveAll_length (team : List (List (Option String))) (sup action ts : String) :
    ∀ (l : List String) (rs : List LogRow),
      resolveAll team sup action ts l = some rs → rs.length = l.length := by
  intro l
  induction l with
  | nil =>
      intro rs h
      simp only [resolveAll, Option.some_inj] at h
      subst h
      rfl
  | cons e es ih =>
      intro rs h
      simp only [resolveAll] at h
      split at h
      · rename_i r rs' hr hrs
        rw [Option.some_inj] at h
        subst h
        simp [List.length_cons, ih rs' hrs]
      · cases h

theorem recordsFor_eq_resolveAll (team : List (List (Option String))) (sup action ts : String) :
    ∀ (l : List String) (rs : List LogRow),
      resolveAll team sup action ts l = some rs →
      recordsFor team sup action ts l = some rs := by
  intro l
  induction l with
  | nil => intro rs h; simpa [resolveAll, recordsFor] using h
  | cons e es ih =>
      intro rs h
      simp only [resolveAll] at h
      split at h
      · rename_i r rs' hr hrs
        rw [Option.some_inj] at h
        subst h
        simp only [resolveRow] at hr
        split at hr
        · cases hr
        · rename_i uid rest2 hparse
          split at hr
          · cases hr
          · rename_i row hfind
            rw [Option.some_inj] at hr
            simp only [recordsFor, hparse, ih rs' hrs, hfind]
            rw [hr]
      · cases h

theorem resolveAll_fields (team : List (List (Option String))) (sup action ts : String) :
    ∀ (l : List String) (rs : List LogRow),
      resolveAll team sup action ts l = some rs →
      ∀ r ∈ rs, r.action = action ∧ r.timestamp = ts := by
  intro l
  induction l with
  | nil =>
      intro rs h
      simp only [resolveAll, Option.some_inj] at h
      subst h
      intro r hr
      cases hr
  | cons e es ih =>
      intro rs h
      simp only [resolveAll] at h
      split at h
      · rename_i r rs' hr hrs
        rw [Option.some_inj] at h
        subst h
        intro x hx
        rcases List.mem_cons.mp hx with rfl | hx
        · simp only [resolveRow] at hr
          split at hr
          · cases hr
          · split at hr
            · cases hr
            · rw [Option.some_inj] at hr
              rw [← hr]
              exact ⟨rfl, rfl⟩
        · exact ih rs' hrs x hx
      · cases h

theorem recordsFor_unmatched (team : List (List (Option String))) (sup action ts : String) :
    ∀ l : List String,
      (∀ e ∈ l, ∃ uid rest2, parseLabel e = some (uid, rest2) ∧
        team.find? (fun r => r.getD 0 none == some uid) = none) →
      recordsFor team sup action ts l = some [] := by
  intro l
  induction l with
  | nil => intro _; rfl
  | cons e es ih =>
      intro h
      obtain ⟨uid, rest2, hparse, hfind⟩ := h e (List.mem_cons_self e es)
      have hrest := ih (fun x hx => h x (List.mem_cons_of_mem e hx))
      simp only [recordsFor, hparse, hrest, hfind]

theorem toLower_of_isWhitespace {c : Char} (h : c.isWhitespace = true) :
    c.toLower = c := by
  simp only [Char.isWhitespace, Bool.or_eq_true, decide_eq_true_eq] at h
  rcases h with ((rfl | rfl) | rfl) | rfl <;> decide

theorem clean_of_lower_supervisor {t : String} (h : lowerStr t = "supervisor") :
    ∀ x ∈ t.data, x.isWhitespace = false ∧ x ≠ '﻿' := by
  intro x hx
  have hmap : t.data.map Char.toLower = "supervisor".data := by
    have hd := congrArg String.data h
    simpa [lowerStr] using hd
  have hmem : x.toLower ∈ "supervisor".data := by
    rw [← hmap]
    exact List.mem_map_of_mem Char.toLower hx
  have hclean : ∀ y ∈ "supervisor".data, y.isWhitespace = false ∧ y ≠ '﻿' := by decide
  constructor
  · by_cases hws : x.isWhitespace = true
    · rw [toLower_of_isWhitespace hws] at hmem
      exact absurd hws (by simp [(hclean x hmem).1])
    · simpa using hws
  · intro hbom
    subst hbom
    have hlow : Char.toLower '﻿' = '﻿' := by decide
    rw [hlow] at hmem
    exact absurd rfl (hclean _ hmem).2

theorem dropWhile_eq_self_of_clean {l : List Char}
    (h : ∀ x ∈ l, x.isWhitespace = false) :
    l.dropWhile Char.isWhitespace = l := by
  cases l with
  | nil => rfl
  | cons c cs =>
      rw [List.dropWhile_cons]
      simp [h c (List.mem_cons_self c cs)]

theorem normName_of_clean {s : String}
    (h : ∀ x ∈ s.data, x.isWhitespace = false ∧ x ≠ '﻿') : normName s = s := by
  have hbom : stripBOM s.data = s.data := by
    cases hd : s.data with
    | nil => rfl
    | cons c cs =>
        simp only [stripBOM]
        rw [if_neg]
        exact (h c (by rw [hd]; exact List.mem_cons_self c cs)).2
  unfold normName stripWS
  rw [hbom]
  rw [dropWhile_eq_self_of_clean (fun x hx => (h x hx).1)]
  rw [dropWhile_eq_self_of_clean (fun x hx => (h x (List.mem_reverse.mp hx)).1)]
  rw [List.reverse_reverse]

theorem normName_stable {t : String} (h : lowerStr t = "supervisor") :
    normName t = t :=
  normName_of_clean (clean_of_lower_supervisor h)

theorem findSupIdx_ne_none {cols : List String} {c : String}
    (hc : c ∈ cols) (hsup : lowerStr (normName c) = "supervisor") :
    findSupIdx cols ≠ none := by
  induction cols with
  | nil => cases hc
  | cons d ds ih =>
      simp only [findSupIdx]
      split
      · simp
      · rename_i hd
        rcases List.mem_cons.mp hc with rfl | hmem
        · exact absurd hsup hd
        · intro hmap
          exact ih hmem (Option.map_eq_none'.mp hmap)

theorem findSupIdx_normalized_ne_none {cols : List String} {c : String}
    (hc : c ∈ cols) (hsup : lowerStr (normName c) = "supervisor") :
    findSupIdx (normalizeCols cols) ≠ none := by
  apply findSupIdx_ne_none (List.mem_map_of_mem normName hc)
  rw [normName_stable hsup]
  exact hsup

theorem concat_rows_eq (f : RawFile) (rest : List RawFile) :
    (concatParts (normalizeCols f.header) (readParts (f :: rest))).rows
      = f.dataRows ++ (rest.map RawFile.dataRows).flatten := by
  simp only [concatParts, readParts, List.map_cons, List.map_map, List.flatten_cons]
  congr 1

theorem getColIdx_eq_none {df : DF} {name : String} (h : name ∉ df.cols) :
    getColIdx df name = none := by
  unfold getColIdx
  rw [List.findIdx?_eq_none_iff]
  intro x hx
  simp only [beq_eq_false_iff_ne, ne_eq]
  intro hxe
  subst hxe
  exact h hx

/-! Claim theorems. -/

/-- C1 counterexample: uploading two files persists the pointer to the
first file only, so loading the active dataset yields just the first
file's parsed rows, not the concatenated roster the admin path ingested —
at an explicit two-file input the two row lists differ. -/
theorem active_pointer_cex :
    (uploadHandler [⟨["Supervisor"], [[some "Jordan"]]⟩,
                    ⟨["Supervisor"], [[some "Alex"]]⟩]).map
        (fun r => ((load_dataframe r.activeFile).rows, r.concatenated.rows))
      = some ([[some "Jordan"]], [[some "Jordan"], [some "Alex"]]) ∧
    ([[some "Jordan"]] : List (List (Option String)))
      ≠ [[some "Jordan"], [some "Alex"]] := by
  constructor <;> decide

/-- C1 (amended): after a successful upload the active-dataset pointer
names the **first** uploaded file, whose raw bytes are persisted
unchanged; loading the active dataset yields exactly the first file's
parsed rows under its raw header, while the in-memory concatenated roster
holds the rows of every file — the two coincide exactly when a single
file was uploaded. -/
theorem active_pointer_amended (f : RawFile) (rest : List RawFile)
    (R : UploadResult) (h : uploadHandler (f :: rest) = some R) :
    R.activeFile = f ∧
    (load_dataframe R.activeFile).cols = f.header ∧
    (load_dataframe R.activeFile).rows = f.dataRows ∧
    R.concatenated.rows = f.dataRows ++ (rest.map RawFile.dataRows).flatten ∧
    (rest = [] → R.concatenated.rows = (load_dataframe R.activeFile).rows) := by
  simp only [uploadHandler, Option.some_inj] at h
  subst h
  refine ⟨rfl, rfl, rfl, concat_rows_eq f rest, ?_⟩
  rintro rfl
  rw [concat_rows_eq f []]
  simp [load_dataframe]

/-- C1 amended witness: a concrete single-file upload, where the active
dataset and the concatenated roster agree. -/
theorem active_pointer_amended_instance :
    uploadHandler [⟨["Supervisor"], [[some "Jordan"]]⟩]
      = some ⟨⟨["Supervisor"], [[some "Jordan"]]⟩, ⟨["Supervisor"], [[some "Jordan"]]⟩⟩ ∧
    (⟨⟨["Supervisor"], [[some "Jordan"]]⟩, ⟨["Supervisor"], [[some "Jordan"]]⟩⟩
        : UploadResult).concatenated.rows
      = (load_dataframe (⟨⟨["Supervisor"], [[some "Jordan"]]⟩,
          ⟨["Supervisor"], [[some "Jordan"]]⟩⟩ : UploadResult).activeFile).rows :=
  ⟨by decide,
   (active_pointer_amended ⟨["Supervisor"], [[some "Jordan"]]⟩ []
      ⟨⟨["Supervisor"], [[some "Jordan"]]⟩, ⟨["Supervisor"], [[some "Jordan"]]⟩⟩
      (by decide)).2.2.2.2 rfl⟩

/-- C2: for every roster frame and every well-formed prior durable code
map, a successful `load_or_create_codes` run assigns every supervisor
appearing in the roster's supervisor column a code, keys stay unique (so
each supervisor holds exactly one code), no two entries share a code, all
codes are 4-digit values in [1000, 9999], and every prior entry survives
unchanged — the prior map is a prefix of the result, so repeated calls
with growing supervisor sets only ever append. -/
theorem load_or_create_codes_correct (stream : Nat → Fin 9000) (fuel : Nat)
    (df : DF) (store : Option CodeMap) (m : CodeMap)
    (hk : ((store.getD []).map Prod.fst).Nodup)
    (hv : ((store.getD []).map Prod.snd).Nodup)
    (hc : ∀ c ∈ (store.getD []).map Prod.snd, isCode c)
    (h : load_or_create_codes stream fuel df store = .ok m) :
    (∀ j, findSupIdx df.cols = some j →
      ∀ s, (∃ r ∈ df.rows, r.getD j none = some s) → s ∈ m.map Prod.fst) ∧
    (m.map Prod.fst).Nodup ∧
    (m.map Prod.snd).Nodup ∧
    (∀ c ∈ m.map Prod.snd, isCode c) ∧
    (∀ e ∈ store.getD [], e ∈ m) ∧
    (∃ ext, m = store.getD [] ++ ext) := by
  obtain ⟨⟨ext, hext⟩, hk', hv', hc', hall⟩ :=
    load_codes_ok_invariant stream fuel df store m hk hv hc h
  refine ⟨hall, hk', hv', hc', ?_, ⟨ext, hext⟩⟩
  intro e he
  rw [hext]
  exact List.mem_append_left _ he

/-- C2 witness: a concrete roster of two supervisors starting from an
empty store, checked at the supervisor Ann and the resulting code list. -/
theorem load_or_create_codes_correct_instance :
    "Ann" ∈ ([("Ann", "1000"), ("Bob", "1001")] : CodeMap).map Prod.fst ∧
    (([("Ann", "1000"), ("Bob", "1001")] : CodeMap).map Prod.snd).Nodup := by
  have h := load_or_create_codes_correct wStream 10
      ⟨["Supervisor"], [[some "Bob"], [some "Ann"]]⟩ none
      [("Ann", "1000"), ("Bob", "1001")]
      (by decide) (by decide) (by intro c hcm; simp at hcm) (by decide)
  exact ⟨h.1 0 (by decide) "Ann" ⟨[some "Ann"], by decide, by decide⟩, h.2.2.1⟩

/-- C3: for a code map produced by `load_or_create_codes` from a
well-formed prior store, looking up the code of any entry returns that
entry's supervisor, looking up a code assigned to nobody returns `None`,
and when no code store exists at all every lookup returns `None`. -/
theorem find_supervisor_by_code_correct (stream : Nat → Fin 9000) (fuel : Nat)
    (df : DF) (store : Option CodeMap) (m : CodeMap)
    (hk : ((store.getD []).map Prod.fst).Nodup)
    (hv : ((store.getD []).map Prod.snd).Nodup)
    (hc : ∀ c ∈ (store.getD []).map Prod.snd, isCode c)
    (h : load_or_create_codes stream fuel df store = .ok m) :
    (∀ s c, (s, c) ∈ m → find_supervisor_by_code (some m) c = some s) ∧
    (∀ code, code ∉ m.map Prod.snd → find_supervisor_by_code (some m) code = none) ∧
    (∀ code, find_supervisor_by_code none code = none) := by
  obtain ⟨-, -, hv', -, -⟩ := load_codes_ok_invariant stream fuel df store m hk hv hc h
  refine ⟨?_, ?_, fun code => rfl⟩
  · intro s c hmem
    simp only [find_supervisor_by_code]
    rw [find_code_eq_of_mem m s c hv' hmem]
    rfl
  · intro code hcode
    simp only [find_supervisor_by_code]
    rw [find_code_eq_of_not_mem m code hcode]
    rfl

/-- C3 witness: lookups against a concrete map produced by a concrete
`load_or_create_codes` run, plus the missing-store case. -/
theorem find_supervisor_by_code_correct_instance :
    find_supervisor_by_code (some [("Ann", "1000"), ("Bob", "1001")]) "1001" = some "Bob" ∧
    find_supervisor_by_code (some [("Ann", "1000"), ("Bob", "1001")]) "7777" = none ∧
    find_supervisor_by_code none "1234" = none := by
  have h := find_supervisor_by_code_correct wStream 10
      ⟨["Supervisor"], [[some "Ann"], [some "Bob"]]⟩ none
      [("Ann", "1000"), ("Bob", "1001")]
      (by decide) (by decide) (by intro c hcm; simp at hcm) (by decide)
  exact ⟨h.1 "Bob" "1001" (by decide), h.2.1 "7777" (by decide), h.2.2 "1234"⟩

/-- C4: when every approve and remove label resolves to a row of the bound
supervisor's deduplicated team, `log_actions` appends exactly N+M rows to
the store, all sharing the single per-call timestamp, in label order with
every Approved row preceding every Removed row. -/
theorem log_actions_appends (sup ts : String) (approved removed : List String)
    (df : DF) (store : Option (List LogRow)) (team : List (List (Option String)))
    (aRecs rRecs : List LogRow)
    (hteam : teamOf df sup = some team)
    (ha : resolveAll team sup "Approved" ts approved = some aRecs)
    (hr : resolveAll team sup "Removed" ts removed = some rRecs)
    (hne : approved.length + removed.length ≠ 0) :
    log_actions sup approved removed df ts store
      = some (some (store.getD [] ++ (aRecs ++ rRecs))) ∧
    (aRecs ++ rRecs).length = approved.length + removed.length ∧
    (∀ r ∈ aRecs ++ rRecs, r.timestamp = ts) ∧
    (∀ r ∈ aRecs, r.action = "Approved") ∧
    (∀ r ∈ rRecs, r.action = "Removed") := by
  have hA := recordsFor_eq_resolveAll team sup "Approved" ts approved aRecs ha
  have hRm := recordsFor_eq_resolveAll team sup "Removed" ts removed rRecs hr
  have hlenA := resolveAll_length team sup "Approved" ts approved aRecs ha
  have hlenR := resolveAll_length team sup "Removed" ts removed rRecs hr
  have hlen : (aRecs ++ rRecs).length = approved.length + removed.length := by
    rw [List.length_append, hlenA, hlenR]
  have hnonempty : ¬ (aRecs ++ rRecs = []) := by
    intro hcon
    rw [hcon] at hlen
    simp at hlen
    exact hne hlen.symm
  refine ⟨?_, hlen, ?_, ?_, ?_⟩
  · simp only [log_actions, hteam, mkRecords, hA, hRm]
    rw [if_neg hnonempty]
  · intro r hrr
    rcases List.mem_append.mp hrr with hrr | hrr
    · exact (resolveAll_fields team sup "Approved" ts approved aRecs ha r hrr).2
    · exact (resolveAll_fields team sup "Removed" ts removed rRecs hr r hrr).2
  · intro r hrr
    exact (resolveAll_fields team sup "Approved" ts approved aRecs ha r hrr).1
  · intro r hrr
    exact (resolveAll_fields team sup "Removed" ts removed rRecs hr r hrr).1

/-- C4 witness: the spec's own scenario — approving `E1 - Alice` and
removing `E2 - Bob` under Jordan appends the two expected rows with one
timestamp. -/
theorem log_actions_appends_instance :
    log_actions "Jordan" ["E1 - Alice"] ["E2 - Bob"] wDF "T" none
      = some (some [wRowA, wRowR]) ∧
    ([wRowA] ++ [wRowR]).length = 2 := by
  have h := log_actions_appends "Jordan" "T" ["E1 - Alice"] ["E2 - Bob"] wDF none
      wTeam [wRowA] [wRowR] (by decide) (by decide) (by decide) (by decide)
  exact ⟨by simpa using h.1, h.2.1⟩

/-- C5: when no decision survives resolution — both lists empty, or every
label parses but matches no row of the bound supervisor's team —
`log_actions` returns normally with the store untouched: an absent log
file is not created and an existing one is not rewritten. -/
theorem log_actions_empty_frame (sup ts : String) (approved removed : List String)
    (df : DF) (store : Option (List LogRow)) (team : List (List (Option String)))
    (hteam : teamOf df sup = some team)
    (h : (approved = [] ∧ removed = []) ∨
      (∀ e ∈ approved ++ removed, ∃ uid rest2, parseLabel e = some (uid, rest2) ∧
        team.find? (fun r => r.getD 0 none == some uid) = none)) :
    log_actions sup approved removed df ts store = some store := by
  have hA : recordsFor team sup "Approved" ts approved = some [] := by
    rcases h with ⟨rfl, rfl⟩ | h
    · rfl
    · exact recordsFor_unmatched team sup "Approved" ts approved
        (fun e he => h e (List.mem_append_left _ he))
  have hRm : recordsFor team sup "Removed" ts removed = some [] := by
    rcases h with ⟨rfl, rfl⟩ | h
    · rfl
    · exact recordsFor_unmatched team sup "Removed" ts removed
        (fun e he => h e (List.mem_append_right _ he))
  simp [log_actions, hteam, mkRecords, hA, hRm]

/-- C5 witness: a stale label that matches no row of Jordan's team leaves
a concrete existing store untouched. -/
theorem log_actions_empty_frame_instance :
    log_actions "Jordan" ["E9 - Zed"] [] wDF "T" (some [wRowA]) = some (some [wRowA]) := by
  have h := log_actions_empty_frame "Jordan" "T" ["E9 - Zed"] [] wDF (some [wRowA])
      wTeam (by decide)
      (Or.inr (by
        intro e he
        simp only [List.append_nil, List.mem_singleton] at he
        subst he
        exact ⟨"E9", "Zed", by decide, by decide⟩))
  exact h

/-- C6 counterexample: a sequence whose second file lacks any Supervisor
column does **not** raise the schema error — the check only ever sees the
first file's (normalized) header, so "always raises, regardless of the
file's position" fails at this explicit input. -/
theorem schema_error_position_cex :
    (uploadHandler [⟨["Supervisor", "User ID"], [[some "Jordan", some "E1"]]⟩,
                    ⟨["Stuff"], [[some "x", some "y"]]⟩]).map
        (fun r => findSupIdx r.concatenated.cols) = some (some 0) ∧
    ¬ ∃ c ∈ ["Stuff"], lowerStr (normName c) = "supervisor" := by
  constructor <;> decide

/-- C6 (amended): whether ingestion raises the missing-Supervisor schema
error is determined by the first uploaded file's header alone — the
concatenated frame's columns are exactly the normalized first header, so
subsequent files can never trigger (or avoid) the error; and when the
first file has a column that normalizes case-insensitively to
`supervisor`, the error is never raised whatever the later files are. -/
theorem schema_error_amended (f : RawFile) (rest : List RawFile)
    (R : UploadResult) (h : uploadHandler (f :: rest) = some R) :
    findSupIdx R.concatenated.cols = findSupIdx (normalizeCols f.header) ∧
    ((∃ c ∈ f.header, lowerStr (normName c) = "supervisor") →
      findSupIdx R.concatenated.cols ≠ none) := by
  simp only [uploadHandler, Option.some_inj] at h
  subst h
  refine ⟨rfl, ?_⟩
  rintro ⟨c, hc, hsup⟩
  exact findSupIdx_normalized_ne_none hc hsup

/-- C6 amended witness: a concrete first file with a Supervisor column,
followed by a file without one, passes the schema check. -/
theorem schema_error_amended_instance :
    findSupIdx (normalizeCols ["Supervisor", "User ID"]) ≠ none :=
  ((schema_error_amended ⟨["Supervisor", "User ID"], []⟩
      [⟨["Stuff"], [[some "x"]]⟩]
      ⟨⟨normalizeCols ["Supervisor", "User ID"], [[some "x"]]⟩,
       ⟨["Supervisor", "User ID"], []⟩⟩
      (by decide)).2 ⟨"Supervisor", by decide, by decide⟩)

/-- C7 counterexample: a subsequent file whose first line is ordinary data
(not the canonical header) loses that line — `skiprows=1` drops the first
line unconditionally, so the claimed "treated as data unless it matches
the header" fails at this explicit input. -/
theorem skiprows_cex :
    (uploadHandler [⟨["Supervisor", "User ID"], [[some "Jordan", some "E1"]]⟩,
                    ⟨["Jordan", "E2"], [[some "Jordan", some "E3"]]⟩]).map
        (fun r => r.concatenated.rows)
      = some [[some "Jordan", some "E1"], [some "Jordan", some "E3"]] ∧
    ([some "Jordan", some "E2"] : List (Option String))
      ∉ [[some "Jordan", some "E1"], [some "Jordan", some "E3"]] := by
  constructor <;> decide

/-- C7 (amended): every file after the first has its first line dropped
unconditionally and its remaining lines parsed under the canonical schema
captured from the first file — so a repeated-header export is not
double-counted, but a subsequent file whose first line is data silently
loses that line. -/
theorem subsequent_rows_amended (f : RawFile) (rest : List RawFile)
    (R : UploadResult) (h : uploadHandler (f :: rest) = some R) :
    R.concatenated.rows = f.dataRows ++ (rest.map RawFile.dataRows).flatten ∧
    R.concatenated.cols = normalizeCols f.header := by
  simp only [uploadHandler, Option.some_inj] at h
  subst h
  exact ⟨concat_rows_eq f rest, rfl⟩

/-- C7 amended witness: a concrete two-file upload whose second file is a
repeated-header export — only its data line survives. -/
theorem subsequent_rows_amended_instance :
    uploadHandler [⟨["Supervisor"], [[some "A"]]⟩, ⟨["Supervisor"], [[some "B"]]⟩]
      = some ⟨⟨["Supervisor"], [[some "A"], [some "B"]]⟩, ⟨["Supervisor"], [[some "A"]]⟩⟩ ∧
    (⟨⟨["Supervisor"], [[some "A"], [some "B"]]⟩,
      ⟨["Supervisor"], [[some "A"]]⟩⟩ : UploadResult).concatenated.rows
      = [[some "A"]] ++ ([⟨["Supervisor"], [[some "B"]]⟩].map RawFile.dataRows).flatten :=
  ⟨by decide,
   (subsequent_rows_amended ⟨["Supervisor"], [[some "A"]]⟩
      [⟨["Supervisor"], [[some "B"]]⟩]
      ⟨⟨["Supervisor"], [[some "A"], [some "B"]]⟩, ⟨["Supervisor"], [[some "A"]]⟩⟩
      (by decide)).1⟩

/-- C8 counterexample: Start New Review from the completed state does not
discard the Supervisor binding — at an explicit completed state bound to
Jordan, the supervisor key still holds `Jordan` afterwards. -/
theorem start_new_review_cex :
    (startNewReview ⟨some "Jordan", true, true, ["E1 - Alice"], ["E2 - Bob"]⟩).supervisor
      = some "Jordan" := by decide

/-- C8 (amended): Start New Review empties both decision lists and resets
both review flags, returning the session to the AwaitingCode screen, but
the supervisor key keeps the previously bound identity (it is only
overwritten on the next successful code entry). -/
theorem start_new_review_amended (s : SessionState) :
    (startNewReview s).approved = [] ∧
    (startNewReview s).removed = [] ∧
    (startNewReview s).review_started = false ∧
    (startNewReview s).review_complete = false ∧
    phase (startNewReview s) = Phase.awaitingCode ∧
    (startNewReview s).supervisor = s.supervisor := by
  refine ⟨rfl, rfl, rfl, rfl, ?_, rfl⟩
  simp [phase, startNewReview]

/-- C9: the collision-retry loop of `generate_unique_code` terminates
whenever the assigned codes cover fewer than all 9000 values — for any
random stream that eventually draws every value, some finite fuel
suffices — and every value it ever returns is a 4-digit decimal string in
[1000, 9999] that is not among the existing codes. -/
theorem generate_unique_code_terminates (stream : Nat → Fin 9000)
    (existing : List String)
    (hfair : ∀ v : Fin 9000, ∃ i, stream i = v)
    (hfree : ∃ v : Fin 9000, codeOf v ∉ existing) :
    (∃ fuel c i', generate_unique_code stream existing fuel 0 = some (c, i')) ∧
    (∀ fuel i c i', generate_unique_code stream existing fuel i = some (c, i') →
      c ∉ existing ∧ isCode c) := by
  constructor
  · obtain ⟨v, hv⟩ := hfree
    obtain ⟨i0, hi0⟩ := hfair v
    have hfresh : codeOf (stream (0 + i0)) ∉ existing := by
      rw [Nat.zero_add, hi0]
      exact hv
    obtain ⟨c, i', hc⟩ := generate_unique_code_finds stream existing i0 0 hfresh
    exact ⟨i0 + 1, c, i', hc⟩
  · intro fuel i c i' h
    obtain ⟨hnot, v, rfl⟩ := generate_unique_code_sound stream existing fuel i c i' h
    exact ⟨hnot, isCode_codeOf v⟩

/-- C9 witness: with the cycling stream and one assigned code, the loop
returns the fresh in-range code `1001`. -/
theorem generate_unique_code_terminates_instance :
    "1001" ∉ ["1000"] ∧ isCode "1001" := by
  have h := generate_unique_code_terminates wStream ["1000"]
      (fun v => ⟨v.val, Fin.ext (Nat.mod_eq_of_lt v.isLt)⟩)
      ⟨⟨1, by norm_num⟩, by decide⟩
  exact h.2 5 0 "1001" 2 (by decide)

/-- C10: header normalization is applied only to the in-memory frame — the
persisted active roster keeps its raw header.  For any first file whose
header has a column that matches `Supervisor` only after BOM/whitespace
stripping and case folding but is not literally `Supervisor`, ingestion
passes the schema check and `load_or_create_codes` can never abort with
the schema error, yet the supervisor-side path, which reloads the raw file
and indexes by the exact name `Supervisor`, has its team computation and
`log_actions` raise instead of returning. -/
theorem normalization_not_persisted (f : RawFile) (rest : List RawFile)
    (R : UploadResult) (c sup ts : String) (approved removed : List String)
    (store : Option (List LogRow))
    (hup : uploadHandler (f :: rest) = some R)
    (hc : c ∈ f.header) (hsup : lowerStr (normName c) = "supervisor")
    (hexact : "Supervisor" ∉ f.header) :
    findSupIdx R.concatenated.cols ≠ none ∧
    (∀ stream fuel st, load_or_create_codes stream fuel R.concatenated st ≠ .schemaError) ∧
    R.activeFile = f ∧
    (load_dataframe R.activeFile).cols = f.header ∧
    teamOf (load_dataframe R.activeFile) sup = none ∧
    log_actions sup approved removed (load_dataframe R.activeFile) ts store = none := by
  simp only [uploadHandler, Option.some_inj] at hup
  subst hup
  have hfind : findSupIdx (normalizeCols f.header) ≠ none :=
    findSupIdx_normalized_ne_none hc hsup
  have hteamnone : teamOf (load_dataframe f) sup = none := by
    have h0 : getColIdx (load_dataframe f) "Supervisor" = none :=
      getColIdx_eq_none hexact
    simp [teamOf, h0]
  refine ⟨hfind, ?_, rfl, rfl, hteamnone, ?_⟩
  · intro stream fuel st
    obtain ⟨jj, hjj⟩ := Option.ne_none_iff_exists'.mp hfind
    have hcols : (concatParts (normalizeCols f.header) (readParts (f :: rest))).cols
        = normalizeCols f.header := rfl
    simp only [load_or_create_codes, hcols, hjj]
    cases assignCodes stream fuel
        (supervisorsOf (concatParts (normalizeCols f.header) (readParts (f :: rest))) jj)
        (st.getD []) 0 with
    | none => simp
    | some p =>
        obtain ⟨mm, ii⟩ := p
        simp
  · simp [log_actions, hteamnone]

/-- C10 witness: a roster whose raw header says `SUPERVISOR` — ingestion
passes the schema check, but the review path's team computation raises. -/
theorem normalization_not_persisted_instance :
    teamOf (load_dataframe ⟨["SUPERVISOR", "User ID", "User Name", "Role", "Role Name"],
        [[some "Jordan", some "E1", some "Alice", some "R1", some "Admin"]]⟩) "Jordan"
      = none ∧
    findSupIdx ["SUPERVISOR", "User ID", "User Name", "Role", "Role Name"] ≠ none := by
  have h := normalization_not_persisted
      ⟨["SUPERVISOR", "User ID", "User Name", "Role", "Role Name"],
       [[some "Jordan", some "E1", some "Alice", some "R1", some "Admin"]]⟩ []
      ⟨⟨["SUPERVISOR", "User ID", "User Name", "Role", "Role Name"],
        [[some "Jordan", some "E1", some "Alice", some "R1", some "Admin"]]⟩,
       ⟨["SUPERVISOR", "User ID", "User Name", "Role", "Role Name"],
        [[some "Jordan", some "E1", some "Alice", some "R1", some "Admin"]]⟩⟩
      "SUPERVISOR" "Jordan" "T" [] [] none
      (by decide) (by decide) (by decide) (by decide)
  exact ⟨h.2.2.2.2.1, h.1⟩

end AccessReview
